import Mathlib

/-!
Shallow embedding of the geometry core of the 3D→2D CAD converter
(`src/main.py`): the mesh model, the projector `get_projection`, the
extractors `get_outline_edges` / `get_filled_projection`, the canvas
normalizer `normalize_coords`, and the three encoders `to_dxf`, `to_svg`,
`to_png`.  Coordinates are modelled exactly (over `ℚ`, and over `ℝ` for the
trigonometric isometric claim); numpy errors on empty arrays are modelled by
`Except`.
-/

/-- A triangulated mesh: vertex positions and triangular faces as index
triples, modelling the `vertices` and `faces` arrays of a `trimesh.Trimesh`. -/
structure Mesh (α : Type) where
  vertices : List (α × α × α)
  faces : List (ℕ × ℕ × ℕ)

/-- The mesh-model invariant: every vertex index referenced by a face is
smaller than the vertex count. -/
def Mesh.valid {α : Type} (m : Mesh α) : Prop :=
  ∀ f ∈ m.faces,
    f.1 < m.vertices.length ∧ f.2.1 < m.vertices.length ∧ f.2.2 < m.vertices.length

instance {α : Type} (m : Mesh α) : Decidable m.valid := by
  unfold Mesh.valid; infer_instance

/-- An undirected edge with its endpoints sorted (trimesh sorts each edge row
before deduplicating). -/
def sortEdge (e : ℕ × ℕ) : ℕ × ℕ := (min e.1 e.2, max e.1 e.2)

/-- Models `trimesh.Trimesh.edges_unique`: each face `(a, b, c)` contributes
the edges `ab`, `bc`, `ca`; rows are sorted and deduplicated.  The spec leaves
the enumeration order implementation-defined and no claim depends on it. -/
def Mesh.edges_unique {α : Type} (m : Mesh α) : List (ℕ × ℕ) :=
  (((m.faces.map fun f => [(f.1, f.2.1), (f.2.1, f.2.2), (f.2.2, f.1)]).flatten).map sortEdge).dedup

namespace CADConverter

/-- The rotation about the third axis used by the `isometric` branch of
`get_projection` (`vertices @ rot_z.T` with matrix
`[[c,-s,0],[s,c,0],[0,0,1]]`); `c` and `s` stand for cos 45° and sin 45°. -/
def rotZ {α : Type} [Field α] (c s : α) (v : α × α × α) : α × α × α :=
  (c * v.1 - s * v.2.1, s * v.1 + c * v.2.1, v.2.2)

/-- `CADConverter.get_projection`: the 2D projection of the mesh vertices for a
view, one 2D point per vertex.  Unknown views take the final `else` branch. -/
def get_projection {α : Type} [Field α] (c s : α) (m : Mesh α) (view : String) :
    List (α × α) :=
  if view = "top" then m.vertices.map fun v => (v.1, v.2.1)
  else if view = "front" then m.vertices.map fun v => (v.1, v.2.2)
  else if view = "side" then m.vertices.map fun v => (v.2.1, v.2.2)
  else if view = "isometric" then
    m.vertices.map fun v => ((rotZ c s v).1, (rotZ c s v).2.2)
  else m.vertices.map fun v => (v.1, v.2.1)

/-- `CADConverter.get_outline_edges`: one 2D segment per unique edge, each
endpoint looked up in the projection by vertex index. -/
def get_outline_edges (c s : ℚ) (m : Mesh ℚ) (view : String) :
    List ((ℚ × ℚ) × (ℚ × ℚ)) :=
  m.edges_unique.map fun e =>
    ((get_projection c s m view).getD e.1 (0, 0),
     (get_projection c s m view).getD e.2 (0, 0))

/-- `CADConverter.get_filled_projection`: the projection together with, per
face, the list of its three projected corners. -/
def get_filled_projection (c s : ℚ) (m : Mesh ℚ) (view : String) :
    List (ℚ × ℚ) × List (List (ℚ × ℚ)) :=
  let projection := get_projection c s m view
  (projection, m.faces.map fun f =>
    [projection.getD f.1 (0, 0), projection.getD f.2.1 (0, 0),
     projection.getD f.2.2 (0, 0)])

/-- Per-axis minimum (`points.min(axis=0)`).  numpy raises on an empty array;
the `[]` value here is junk, guarded by the `Except` wrapper at call sites. -/
def listMin : List ℚ → ℚ
  | [] => 0
  | x :: xs => xs.foldl min x

/-- Per-axis maximum (`points.max(axis=0)`), same conventions as `listMin`. -/
def listMax : List ℚ → ℚ
  | [] => 0
  | x :: xs => xs.foldl max x

/-- One output point of `normalize_coords`: `(p - min) * scale + margin`. -/
def normPt (minx miny scale margin : ℚ) (p : ℚ × ℚ) : ℚ × ℚ :=
  ((p.1 - minx) * scale + margin, (p.2 - miny) * scale + margin)

/-- `CADConverter.normalize_coords`: fit points into the canvas.  Zero axis
ranges are floored to 1; the single uniform scale comes from the larger
(floored) range; each point maps to `(p - min) * scale + margin`. -/
def normalize_coords (points : List (ℚ × ℚ)) (size margin : ℚ) :
    List (ℚ × ℚ) × ℚ :=
  let minx := listMin (points.map Prod.fst)
  let miny := listMin (points.map Prod.snd)
  let rx0 := listMax (points.map Prod.fst) - minx
  let ry0 := listMax (points.map Prod.snd) - miny
  let rx := if rx0 = 0 then 1 else rx0
  let ry := if ry0 = 0 then 1 else ry0
  let scale := (size - 2 * margin) / max rx ry
  (points.map (normPt minx miny scale margin), scale)

/-- `normalize_coords` behind numpy's empty-reduction check:
`points.min(axis=0)` raises `ValueError` on a zero-size array. -/
def normalize_coordsE (points : List (ℚ × ℚ)) (size margin : ℚ) :
    Except String (List (ℚ × ℚ) × ℚ) :=
  if points = [] then
    .error "zero-size array to reduction operation minimum which has no identity"
  else .ok (normalize_coords points size margin)

/-- `np.vstack` over the flattened endpoint list: raises on an empty list. -/
def vstackE (points : List (ℚ × ℚ)) : Except String (List (ℚ × ℚ)) :=
  if points = [] then .error "need at least one array to concatenate"
  else .ok points

/-- The flattened endpoint sequence `[p for edge in edges for p in edge]`. -/
def flattenEdges (edges : List ((ℚ × ℚ) × (ℚ × ℚ))) : List (ℚ × ℚ) :=
  (edges.map fun e => [e.1, e.2]).flatten

end CADConverter

/-- A DXF modelspace entity emitted by `to_dxf`. -/
inductive DxfEntity
  | line (p1 p2 : ℚ × ℚ)
  | lwpolyline (points : List (ℚ × ℚ)) (close : Bool)
deriving DecidableEq

/-- An SVG element emitted by `to_svg` (in drawing order). -/
inductive SvgElem
  | rect (corner : ℚ × ℚ) (dims : ℚ × ℚ) (fill : String)
  | polygon (points : List (ℚ × ℚ)) (fill stroke : String) (strokeWidth : ℚ)
  | line (start stop : ℚ × ℚ) (stroke : String) (strokeWidth : ℚ)
deriving DecidableEq

/-- A PIL draw command issued by `to_png` (the white `size × size` background
image is implicit). -/
inductive PngCmd
  | polygon (points : List (ℚ × ℚ)) (fill outline : ℕ × ℕ × ℕ)
  | line (p1 p2 : ℚ × ℚ) (fill : String) (width : ℕ)
deriving DecidableEq

namespace CADConverter

/-- `CADConverter.to_dxf`: the entities written to the DXF modelspace.  Raw
projected coordinates, no normalization; never fails on the modelled paths. -/
def to_dxf (c s : ℚ) (m : Mesh ℚ) (view mode : String) :
    Except String (List DxfEntity) :=
  if mode = "filled" then
    .ok ((get_filled_projection c s m view).2.map fun face =>
      DxfEntity.lwpolyline face true)
  else
    .ok ((get_outline_edges c s m view).map fun e => DxfEntity.line e.1 e.2)

/-- The wireframe drawing loop of `to_svg`: the k-th line uses normalized
points 2k and 2k+1, y-flipped, stroke black at width 1.5. -/
def svgWireLines (normalized : List (ℚ × ℚ)) (nEdges : ℕ) (size : ℚ) :
    List SvgElem :=
  (List.range nEdges).map fun k =>
    let p1 := normalized.getD (2 * k) (0, 0)
    let p2 := normalized.getD (2 * k + 1) (0, 0)
    SvgElem.line (p1.1, size - p1.2) (p2.1, size - p2.2) "black" (3 / 2)

/-- `CADConverter.to_svg`: the SVG element list, in drawing order, starting
with the white background rectangle. -/
def to_svg (c s : ℚ) (m : Mesh ℚ) (view : String) (size : ℚ) (mode : String) :
    Except String (List SvgElem) :=
  if mode = "filled" then
    match normalize_coordsE (get_projection c s m view) size 50 with
    | .error e => .error e
    | .ok (normalized, _scale) =>
      .ok (SvgElem.rect (0, 0) (size, size) "white" ::
        m.faces.map fun f =>
          SvgElem.polygon
            [((normalized.getD f.1 (0, 0)).1, size - (normalized.getD f.1 (0, 0)).2),
             ((normalized.getD f.2.1 (0, 0)).1, size - (normalized.getD f.2.1 (0, 0)).2),
             ((normalized.getD f.2.2 (0, 0)).1, size - (normalized.getD f.2.2 (0, 0)).2)]
            "lightgray" "black" (1 / 2))
  else
    match vstackE (flattenEdges (get_outline_edges c s m view)) with
    | .error e => .error e
    | .ok all_points =>
      match normalize_coordsE all_points size 50 with
      | .error e => .error e
      | .ok (normalized, _scale) =>
        .ok (SvgElem.rect (0, 0) (size, size) "white" ::
          svgWireLines normalized (get_outline_edges c s m view).length size)

/-- The wireframe drawing loop of `to_png`: black lines of pixel width 2. -/
def pngWireLines (normalized : List (ℚ × ℚ)) (nEdges : ℕ) (size : ℚ) :
    List PngCmd :=
  (List.range nEdges).map fun k =>
    let p1 := normalized.getD (2 * k) (0, 0)
    let p2 := normalized.getD (2 * k + 1) (0, 0)
    PngCmd.line (p1.1, size - p1.2) (p2.1, size - p2.2) "black" 2

/-- `CADConverter.to_png`: the PIL draw commands, in drawing order, over the
implicit white background image. -/
def to_png (c s : ℚ) (m : Mesh ℚ) (view : String) (size : ℚ) (mode : String) :
    Except String (List PngCmd) :=
  if mode = "filled" then
    match normalize_coordsE (get_projection c s m view) size 50 with
    | .error e => .error e
    | .ok (normalized, _scale) =>
      .ok (m.faces.map fun f =>
        PngCmd.polygon
          [((normalized.getD f.1 (0, 0)).1, size - (normalized.getD f.1 (0, 0)).2),
           ((normalized.getD f.2.1 (0, 0)).1, size - (normalized.getD f.2.1 (0, 0)).2),
           ((normalized.getD f.2.2 (0, 0)).1, size - (normalized.getD f.2.2 (0, 0)).2)]
          (200, 200, 200) (0, 0, 0))
  else
    match vstackE (flattenEdges (get_outline_edges c s m view)) with
    | .error e => .error e
    | .ok all_points =>
      match normalize_coordsE all_points size 50 with
      | .error e => .error e
      | .ok (normalized, _scale) =>
        .ok (pngWireLines normalized (get_outline_edges c s m view).length size)

end CADConverter

section ProjectorLemmas

/-- The projection is always a map over the vertex list, so it has one 2D point
per vertex, for every view string. -/
theorem get_projection_length {α : Type} [Field α] (c s : α) (m : Mesh α)
    (view : String) :
    (CADConverter.get_projection c s m view).length = m.vertices.length := by
  unfold CADConverter.get_projection
  split_ifs <;> simp

theorem get_projection_top {α : Type} [Field α] (c s : α) (m : Mesh α) :
    CADConverter.get_projection c s m "top" = m.vertices.map fun v => (v.1, v.2.1) := rfl

theorem get_projection_front {α : Type} [Field α] (c s : α) (m : Mesh α) :
    CADConverter.get_projection c s m "front" = m.vertices.map fun v => (v.1, v.2.2) := rfl

theorem get_projection_side {α : Type} [Field α] (c s : α) (m : Mesh α) :
    CADConverter.get_projection c s m "side" = m.vertices.map fun v => (v.2.1, v.2.2) := rfl

theorem get_projection_iso {α : Type} [Field α] (c s : α) (m : Mesh α) :
    CADConverter.get_projection c s m "isometric"
      = m.vertices.map fun v => (c * v.1 - s * v.2.1, v.2.2) := rfl

/-- Any view string other than the four enumerants takes the final `else`
branch, which is the `top` projection. -/
theorem get_projection_unknown {α : Type} [Field α] (c s : α) (m : Mesh α)
    (view : String) (h1 : view ≠ "top") (h2 : view ≠ "front")
    (h3 : view ≠ "side") (h4 : view ≠ "isometric") :
    CADConverter.get_projection c s m view = CADConverter.get_projection c s m "top" := by
  unfold CADConverter.get_projection
  rw [if_neg h1, if_neg h2, if_neg h3, if_neg h4, if_pos rfl]

/-- `getD` on a mapped list, inside bounds. -/
theorem getD_map_of_lt {α β : Type} (f : α → β) (l : List α) (i : ℕ)
    (hi : i < l.length) (d : α) (d2 : β) :
    (l.map f).getD i d2 = f (l.getD i d) := by
  rw [List.getD_eq_getElem _ _ (by simpa using hi), List.getD_eq_getElem _ _ hi,
    List.getElem_map]

end ProjectorLemmas

/-- **C1.** For every mesh with N vertices and every view string, the
projection has exactly N points, index-aligned with the vertex sequence: for
`top` the i-th point is the first two coordinates of vertex i, for `front` the
first and third, for `side` the second and third; and any view outside the
four enumerants produces the same output as `top`. -/
theorem projection_shape_and_alignment (c s : ℚ) (m : Mesh ℚ) (view : String) :
    (CADConverter.get_projection c s m view).length = m.vertices.length
    ∧ (∀ i, i < m.vertices.length →
        ((view = "top" →
            (CADConverter.get_projection c s m view).getD i (0, 0)
              = ((m.vertices.getD i (0, 0, 0)).1, (m.vertices.getD i (0, 0, 0)).2.1))
         ∧ (view = "front" →
            (CADConverter.get_projection c s m view).getD i (0, 0)
              = ((m.vertices.getD i (0, 0, 0)).1, (m.vertices.getD i (0, 0, 0)).2.2))
         ∧ (view = "side" →
            (CADConverter.get_projection c s m view).getD i (0, 0)
              = ((m.vertices.getD i (0, 0, 0)).2.1, (m.vertices.getD i (0, 0, 0)).2.2))))
    ∧ (view ≠ "top" → view ≠ "front" → view ≠ "side" → view ≠ "isometric" →
        CADConverter.get_projection c s m view = CADConverter.get_projection c s m "top") := by
  refine ⟨get_projection_length c s m view, ?_, get_projection_unknown c s m view⟩
  intro i hi
  refine ⟨?_, ?_, ?_⟩ <;> rintro rfl
  · rw [get_projection_top, getD_map_of_lt _ _ _ hi (0, 0, 0)]
  · rw [get_projection_front, getD_map_of_lt _ _ _ hi (0, 0, 0)]
  · rw [get_projection_side, getD_map_of_lt _ _ _ hi (0, 0, 0)]

/-- **C1 witness.** The claim instantiated at a one-vertex mesh and the view
string "oblique", which is outside the four enumerants. -/
theorem projection_shape_and_alignment_witness :
    (CADConverter.get_projection (0 : ℚ) 0 (Mesh.mk [((1 : ℚ), 2, 3)] []) "oblique").length = 1
    ∧ (CADConverter.get_projection (0 : ℚ) 0 (Mesh.mk [((1 : ℚ), 2, 3)] []) "oblique").getD 0 (0, 0)
        = (1, 2)
    ∧ CADConverter.get_projection (0 : ℚ) 0 (Mesh.mk [((1 : ℚ), 2, 3)] []) "oblique"
        = CADConverter.get_projection (0 : ℚ) 0 (Mesh.mk [((1 : ℚ), 2, 3)] []) "top" := by
  have h := projection_shape_and_alignment (0 : ℚ) 0 (Mesh.mk [((1 : ℚ), 2, 3)] []) "oblique"
  refine ⟨h.1, ?_, h.2.2 (by decide) (by decide) (by decide) (by decide)⟩
  rw [h.2.2 (by decide) (by decide) (by decide) (by decide)]
  exact (projection_shape_and_alignment (0 : ℚ) 0 (Mesh.mk [((1 : ℚ), 2, 3)] []) "top").2.1 0
    (by decide) |>.1 rfl

/-- **C2 counterexample.** The claim is false on the code: rotating (1,0,0) by
45° about the third axis yields (cos 45°, sin 45°, 0), not (cos 45°, 0,
sin 45°), and the isometric projection of (1,0,0) is (cos 45°, 0), not
(cos 45°, sin 45°).  Both equalities of the claim fail because sin 45° ≠ 0. -/
theorem isometric_rotation_counterexample :
    ¬ (CADConverter.rotZ (Real.cos (Real.pi / 4)) (Real.sin (Real.pi / 4)) ((1 : ℝ), 0, 0)
          = (Real.cos (Real.pi / 4), 0, Real.sin (Real.pi / 4))
       ∧ CADConverter.get_projection (Real.cos (Real.pi / 4)) (Real.sin (Real.pi / 4))
            (Mesh.mk [((1 : ℝ), 0, 0)] []) "isometric"
          = [(Real.cos (Real.pi / 4), Real.sin (Real.pi / 4))]) := by
  rintro ⟨h1, -⟩
  have h2 := congrArg (fun p => p.2.1) h1
  simp only [CADConverter.rotZ, mul_one, mul_zero, add_zero] at h2
  rw [Real.sin_pi_div_four] at h2
  have hpos : (0 : ℝ) < Real.sqrt 2 / 2 := by positivity
  exact absurd h2 (ne_of_gt hpos)

/-- **C2 amended.** What the code actually does: the isometric rotation sends
(1,0,0) to (cos 45°, sin 45°, 0) before axis selection, and projecting (keeping
the first and third axes) yields the 2D point (cos 45°, 0). -/
theorem isometric_rotation_amended :
    CADConverter.rotZ (Real.cos (Real.pi / 4)) (Real.sin (Real.pi / 4)) ((1 : ℝ), 0, 0)
        = (Real.cos (Real.pi / 4), Real.sin (Real.pi / 4), 0)
    ∧ CADConverter.get_projection (Real.cos (Real.pi / 4)) (Real.sin (Real.pi / 4))
          (Mesh.mk [((1 : ℝ), 0, 0)] []) "isometric"
        = [(Real.cos (Real.pi / 4), 0)] := by
  constructor
  · simp [CADConverter.rotZ]
  · rw [get_projection_iso]
    simp

section MinMaxLemmas

open CADConverter

theorem foldl_min_le_init (xs : List ℚ) (a : ℚ) : xs.foldl min a ≤ a := by
  induction xs generalizing a with
  | nil => simp
  | cons x xs ih => exact le_trans (ih (min a x)) (min_le_left a x)

theorem foldl_min_le_mem (xs : List ℚ) (a b : ℚ) (hb : b ∈ xs) :
    xs.foldl min a ≤ b := by
  induction xs generalizing a with
  | nil => cases hb
  | cons x xs ih =>
    rcases List.mem_cons.mp hb with rfl | hmem
    · exact le_trans (foldl_min_le_init xs (min a b)) (min_le_right a b)
    · exact ih (min a x) hmem

/-- `listMin` is a lower bound of the list. -/
theorem listMin_le {l : List ℚ} {b : ℚ} (hb : b ∈ l) : listMin l ≤ b := by
  cases l with
  | nil => cases hb
  | cons x xs =>
    rcases List.mem_cons.mp hb with rfl | hmem
    · exact foldl_min_le_init xs b
    · exact foldl_min_le_mem xs x b hmem

theorem init_le_foldl_max (xs : List ℚ) (a : ℚ) : a ≤ xs.foldl max a := by
  induction xs generalizing a with
  | nil => simp
  | cons x xs ih => exact le_trans (le_max_left a x) (ih (max a x))

theorem mem_le_foldl_max (xs : List ℚ) (a b : ℚ) (hb : b ∈ xs) :
    b ≤ xs.foldl max a := by
  induction xs generalizing a with
  | nil => cases hb
  | cons x xs ih =>
    rcases List.mem_cons.mp hb with rfl | hmem
    · exact le_trans (le_max_right a b) (init_le_foldl_max xs (max a b))
    · exact ih (max a x) hmem

/-- `listMax` is an upper bound of the list. -/
theorem le_listMax {l : List ℚ} {b : ℚ} (hb : b ∈ l) : b ≤ listMax l := by
  cases l with
  | nil => cases hb
  | cons x xs =>
    rcases List.mem_cons.mp hb with rfl | hmem
    · exact init_le_foldl_max xs b
    · exact mem_le_foldl_max xs x b hmem

theorem foldl_min_add (xs : List ℚ) (a t : ℚ) :
    (xs.map fun x => x + t).foldl min (a + t) = xs.foldl min a + t := by
  induction xs generalizing a with
  | nil => rfl
  | cons x xs ih =>
    simp only [List.map_cons, List.foldl_cons]
    rw [min_add_add_right a x t]
    exact ih (min a x)

/-- Translating a nonempty list translates its minimum. -/
theorem listMin_map_add (l : List ℚ) (t : ℚ) (h : l ≠ []) :
    listMin (l.map fun x => x + t) = listMin l + t := by
  cases l with
  | nil => exact absurd rfl h
  | cons x xs => exact foldl_min_add xs x t

theorem foldl_max_add (xs : List ℚ) (a t : ℚ) :
    (xs.map fun x => x + t).foldl max (a + t) = xs.foldl max a + t := by
  induction xs generalizing a with
  | nil => rfl
  | cons x xs ih =>
    simp only [List.map_cons, List.foldl_cons]
    rw [max_add_add_right a x t]
    exact ih (max a x)

/-- Translating a nonempty list translates its maximum. -/
theorem listMax_map_add (l : List ℚ) (t : ℚ) (h : l ≠ []) :
    listMax (l.map fun x => x + t) = listMax l + t := by
  cases l with
  | nil => exact absurd rfl h
  | cons x xs => exact foldl_max_add xs x t

theorem foldl_min_all_eq (xs : List ℚ) (a c : ℚ) (ha : a = c)
    (h : ∀ x ∈ xs, x = c) : xs.foldl min a = c := by
  induction xs generalizing a with
  | nil => simpa using ha
  | cons x xs ih =>
    exact ih (min a x)
      (by rw [ha, h x (List.mem_cons_self x xs), min_self])
      (fun y hy => h y (List.mem_cons_of_mem _ hy))

/-- The minimum of a nonempty constant list. -/
theorem listMin_const {l : List ℚ} {c : ℚ} (hne : l ≠ []) (h : ∀ x ∈ l, x = c) :
    listMin l = c := by
  cases l with
  | nil => exact absurd rfl hne
  | cons x xs =>
    exact foldl_min_all_eq xs x c (h x (List.mem_cons_self x xs))
      (fun y hy => h y (List.mem_cons_of_mem _ hy))

theorem foldl_max_all_eq (xs : List ℚ) (a c : ℚ) (ha : a = c)
    (h : ∀ x ∈ xs, x = c) : xs.foldl max a = c := by
  induction xs generalizing a with
  | nil => simpa using ha
  | cons x xs ih =>
    exact ih (max a x)
      (by rw [ha, h x (List.mem_cons_self x xs), max_self])
      (fun y hy => h y (List.mem_cons_of_mem _ hy))

/-- The maximum of a nonempty constant list. -/
theorem listMax_const {l : List ℚ} {c : ℚ} (hne : l ≠ []) (h : ∀ x ∈ l, x = c) :
    listMax l = c := by
  cases l with
  | nil => exact absurd rfl hne
  | cons x xs =>
    exact foldl_max_all_eq xs x c (h x (List.mem_cons_self x xs))
      (fun y hy => h y (List.mem_cons_of_mem _ hy))

/-- One normalized coordinate stays between `margin` and `span + margin` when
the coordinate lies in `[minx, maxx]`, the scale denominator `M` is positive
and dominates the axis range, and the span is nonnegative. -/
theorem norm_coord_bounds (x minx maxx span M margin : ℚ) (h1 : minx ≤ x)
    (h2 : x ≤ maxx) (hM : 0 < M) (hRM : maxx - minx ≤ M) (hspan : 0 ≤ span) :
    margin ≤ (x - minx) * (span / M) + margin
    ∧ (x - minx) * (span / M) + margin ≤ span + margin := by
  have hsc : 0 ≤ span / M := div_nonneg hspan hM.le
  constructor
  · nlinarith
  · have hle : (x - minx) * (span / M) ≤ M * (span / M) :=
      mul_le_mul_of_nonneg_right (by linarith) hsc
    rw [mul_comm M, div_mul_cancel₀ _ (ne_of_gt hM)] at hle
    linarith

end MinMaxLemmas

section NormalizerClaims

open CADConverter

/-- **C3.** For every non-empty point set with non-zero extent on at least one
axis (and a margin that fits the canvas, as in the 100–4000 caller contract
with margin 50), `normalize_coords` returns scale exactly
`(size - 2*margin) / max(range_x, range_y)` with any zero axis range replaced
by 1, maps each point to `(p - min) * scale + margin`, and every normalized
coordinate lies within `[margin, size - margin]` — in particular on the axis
with the larger range. -/
theorem normalize_coords_spec (points : List (ℚ × ℚ)) (size margin : ℚ)
    (hne : points ≠ [])
    (hext : listMax (points.map Prod.fst) - listMin (points.map Prod.fst) ≠ 0
      ∨ listMax (points.map Prod.snd) - listMin (points.map Prod.snd) ≠ 0)
    (hsz : 2 * margin ≤ size) :
    (normalize_coords points size margin).2
      = (size - 2 * margin)
        / max
          (if listMax (points.map Prod.fst) - listMin (points.map Prod.fst) = 0
            then 1 else listMax (points.map Prod.fst) - listMin (points.map Prod.fst))
          (if listMax (points.map Prod.snd) - listMin (points.map Prod.snd) = 0
            then 1 else listMax (points.map Prod.snd) - listMin (points.map Prod.snd))
    ∧ (normalize_coords points size margin).1
      = points.map (normPt (listMin (points.map Prod.fst))
          (listMin (points.map Prod.snd))
          ((normalize_coords points size margin).2) margin)
    ∧ ∀ q ∈ (normalize_coords points size margin).1,
        margin ≤ q.1 ∧ q.1 ≤ size - margin ∧ margin ≤ q.2 ∧ q.2 ≤ size - margin := by
  obtain ⟨p0, hp0⟩ := List.exists_mem_of_ne_nil points hne
  have hminx : listMin (points.map Prod.fst) ≤ p0.1 :=
    listMin_le (List.mem_map_of_mem Prod.fst hp0)
  have hmaxx : p0.1 ≤ listMax (points.map Prod.fst) :=
    le_listMax (List.mem_map_of_mem Prod.fst hp0)
  have hminy : listMin (points.map Prod.snd) ≤ p0.2 :=
    listMin_le (List.mem_map_of_mem Prod.snd hp0)
  have hmaxy : p0.2 ≤ listMax (points.map Prod.snd) :=
    le_listMax (List.mem_map_of_mem Prod.snd hp0)
  have hrx0 : 0 ≤ listMax (points.map Prod.fst) - listMin (points.map Prod.fst) := by
    linarith
  have hry0 : 0 ≤ listMax (points.map Prod.snd) - listMin (points.map Prod.snd) := by
    linarith
  refine ⟨rfl, rfl, ?_⟩
  intro q hq
  simp only [normalize_coords] at hq
  obtain ⟨p, hp, rfl⟩ := List.mem_map.mp hq
  have hpminx : listMin (points.map Prod.fst) ≤ p.1 :=
    listMin_le (List.mem_map_of_mem Prod.fst hp)
  have hpmaxx : p.1 ≤ listMax (points.map Prod.fst) :=
    le_listMax (List.mem_map_of_mem Prod.fst hp)
  have hpminy : listMin (points.map Prod.snd) ≤ p.2 :=
    listMin_le (List.mem_map_of_mem Prod.snd hp)
  have hpmaxy : p.2 ≤ listMax (points.map Prod.snd) :=
    le_listMax (List.mem_map_of_mem Prod.snd hp)
  have hrxpos : 0 < (if listMax (points.map Prod.fst) - listMin (points.map Prod.fst) = 0
      then 1 else listMax (points.map Prod.fst) - listMin (points.map Prod.fst)) := by
    split_ifs with h
    · norm_num
    · exact lt_of_le_of_ne hrx0 (Ne.symm h)
  have hrypos : 0 < (if listMax (points.map Prod.snd) - listMin (points.map Prod.snd) = 0
      then 1 else listMax (points.map Prod.snd) - listMin (points.map Prod.snd)) := by
    split_ifs with h
    · norm_num
    · exact lt_of_le_of_ne hry0 (Ne.symm h)
  have hM : 0 < max
      (if listMax (points.map Prod.fst) - listMin (points.map Prod.fst) = 0
        then 1 else listMax (points.map Prod.fst) - listMin (points.map Prod.fst))
      (if listMax (points.map Prod.snd) - listMin (points.map Prod.snd) = 0
        then 1 else listMax (points.map Prod.snd) - listMin (points.map Prod.snd)) :=
    lt_max_of_lt_left hrxpos
  have hrxM : listMax (points.map Prod.fst) - listMin (points.map Prod.fst)
      ≤ max
        (if listMax (points.map Prod.fst) - listMin (points.map Prod.fst) = 0
          then 1 else listMax (points.map Prod.fst) - listMin (points.map Prod.fst))
        (if listMax (points.map Prod.snd) - listMin (points.map Prod.snd) = 0
          then 1 else listMax (points.map Prod.snd) - listMin (points.map Prod.snd)) := by
    refine le_trans ?_ (le_max_left _ _)
    split_ifs with h
    · rw [h]; norm_num
    · exact le_refl _
  have hryM : listMax (points.map Prod.snd) - listMin (points.map Prod.snd)
      ≤ max
        (if listMax (points.map Prod.fst) - listMin (points.map Prod.fst) = 0
          then 1 else listMax (points.map Prod.fst) - listMin (points.map Prod.fst))
        (if listMax (points.map Prod.snd) - listMin (points.map Prod.snd) = 0
          then 1 else listMax (points.map Prod.snd) - listMin (points.map Prod.snd)) := by
    refine le_trans ?_ (le_max_right _ _)
    split_ifs with h
    · rw [h]; norm_num
    · exact le_refl _
  have hspan : 0 ≤ size - 2 * margin := by linarith
  have hx := norm_coord_bounds p.1 (listMin (points.map Prod.fst))
    (listMax (points.map Prod.fst)) (size - 2 * margin) _ margin hpminx hpmaxx hM hrxM hspan
  have hy := norm_coord_bounds p.2 (listMin (points.map Prod.snd))
    (listMax (points.map Prod.snd)) (size - 2 * margin) _ margin hpminy hpmaxy hM hryM hspan
  simp only [normPt]
  exact ⟨hx.1, by linarith [hx.2], hy.1, by linarith [hy.2]⟩

/-- **C3 witness.** The claim applied to the concrete point set
`[(0,0), (2,1)]` on a 1000-canvas with margin 50: the point (950, 500) is a
normalized output point and lies in the `[50, 950]` envelope. -/
theorem normalize_coords_spec_witness :
    ((950 : ℚ), (500 : ℚ)) ∈ (CADConverter.normalize_coords [((0 : ℚ), 0), (2, 1)] 1000 50).1
    ∧ (50 : ℚ) ≤ 950 ∧ (950 : ℚ) ≤ 1000 - 50 := by
  have hval : (CADConverter.normalize_coords [((0 : ℚ), 0), (2, 1)] 1000 50).1
      = [(50, 50), (950, 500)] := by
    norm_num [CADConverter.normalize_coords, CADConverter.listMin, CADConverter.listMax,
      CADConverter.normPt, max_def, min_def]
  have h := (normalize_coords_spec [((0 : ℚ), 0), (2, 1)] 1000 50 (by simp)
    (by left; norm_num [CADConverter.listMax, CADConverter.listMin, max_def, min_def])
    (by norm_num)).2.2 (950, 500) (by rw [hval]; simp)
  exact ⟨by rw [hval]; simp, h.1, h.2.1⟩

/-- **C4.** On a non-empty input where all points are identical, both axis
ranges are zero and get floored to 1, so there is no division by zero (and over
exact arithmetic no NaN/Inf can appear): the scale is `(size - 2*margin) / 1`
and every normalized point is `(margin, margin)`. -/
theorem normalize_coords_degenerate (points : List (ℚ × ℚ)) (p : ℚ × ℚ)
    (hne : points ≠ []) (hall : ∀ q ∈ points, q = p) (size margin : ℚ) :
    (CADConverter.normalize_coords points size margin).2 = (size - 2 * margin) / 1
    ∧ (CADConverter.normalize_coords points size margin).1
      = points.map fun _ => (margin, margin) := by
  have hne1 : points.map Prod.fst ≠ [] := by simpa using hne
  have hne2 : points.map Prod.snd ≠ [] := by simpa using hne
  have hminx : listMin (points.map Prod.fst) = p.1 := by
    refine listMin_const hne1 ?_
    intro x hx
    obtain ⟨q, hq, rfl⟩ := List.mem_map.mp hx
    rw [hall q hq]
  have hmaxx : listMax (points.map Prod.fst) = p.1 := by
    refine listMax_const hne1 ?_
    intro x hx
    obtain ⟨q, hq, rfl⟩ := List.mem_map.mp hx
    rw [hall q hq]
  have hminy : listMin (points.map Prod.snd) = p.2 := by
    refine listMin_const hne2 ?_
    intro x hx
    obtain ⟨q, hq, rfl⟩ := List.mem_map.mp hx
    rw [hall q hq]
  have hmaxy : listMax (points.map Prod.snd) = p.2 := by
    refine listMax_const hne2 ?_
    intro x hx
    obtain ⟨q, hq, rfl⟩ := List.mem_map.mp hx
    rw [hall q hq]
  constructor
  · simp only [normalize_coords, hminx, hmaxx, hminy, hmaxy, sub_self, eq_self_iff_true,
      if_true, max_self]
  · simp only [normalize_coords, hminx, hmaxx, hminy, hmaxy, sub_self, eq_self_iff_true,
      if_true, max_self]
    refine List.map_congr_left ?_
    intro a ha
    rw [hall a ha]
    simp [normPt]

/-- **C4 witness.** The degenerate claim at the concrete constant point set
`[(3,7), (3,7)]` with size 400 and margin 50. -/
theorem normalize_coords_degenerate_witness :
    (CADConverter.normalize_coords [((3 : ℚ), 7), (3, 7)] 400 50).2 = (400 - 2 * 50) / 1
    ∧ (CADConverter.normalize_coords [((3 : ℚ), 7), (3, 7)] 400 50).1 = [(50, 50), (50, 50)] := by
  have h := normalize_coords_degenerate [((3 : ℚ), 7), (3, 7)] (3, 7) (by simp) (by simp) 400 50
  refine ⟨h.1, ?_⟩
  rw [h.2]
  rfl

/-- **C5.** Normalization is invariant under uniform translation: translating
every input point by a constant vector `t` changes neither the normalized
points nor the scale. -/
theorem normalize_coords_translation_invariant (points : List (ℚ × ℚ)) (t : ℚ × ℚ)
    (hne : points ≠ []) (size margin : ℚ) :
    CADConverter.normalize_coords (points.map fun q => (q.1 + t.1, q.2 + t.2)) size margin
      = CADConverter.normalize_coords points size margin := by
  have hne1 : points.map Prod.fst ≠ [] := by simpa using hne
  have hne2 : points.map Prod.snd ≠ [] := by simpa using hne
  have hf : (points.map fun q => ((q.1 + t.1 : ℚ), (q.2 + t.2 : ℚ))).map Prod.fst
      = (points.map Prod.fst).map fun x => x + t.1 := by
    simp only [List.map_map]; rfl
  have hs : (points.map fun q => ((q.1 + t.1 : ℚ), (q.2 + t.2 : ℚ))).map Prod.snd
      = (points.map Prod.snd).map fun x => x + t.2 := by
    simp only [List.map_map]; rfl
  simp only [normalize_coords, hf, hs, listMin_map_add _ _ hne1, listMax_map_add _ _ hne1,
    listMin_map_add _ _ hne2, listMax_map_add _ _ hne2]
  have hrx : listMax (points.map Prod.fst) + t.1 - (listMin (points.map Prod.fst) + t.1)
      = listMax (points.map Prod.fst) - listMin (points.map Prod.fst) := by ring
  have hry : listMax (points.map Prod.snd) + t.2 - (listMin (points.map Prod.snd) + t.2)
      = listMax (points.map Prod.snd) - listMin (points.map Prod.snd) := by ring
  rw [hrx, hry]
  simp only [Prod.mk.injEq]
  refine ⟨?_, trivial⟩
  rw [List.map_map]
  refine List.map_congr_left ?_
  intro a _
  simp only [Function.comp, normPt, Prod.mk.injEq]
  constructor <;> ring

/-- **C5 witness.** Translating the point set `[(0,0), (2,1)]` by (10, 4)
leaves the normalized output and scale unchanged. -/
theorem normalize_coords_translation_invariant_witness :
    CADConverter.normalize_coords
        ([((0 : ℚ), 0), (2, 1)].map fun q => (q.1 + 10, q.2 + 4)) 1000 50
      = CADConverter.normalize_coords [((0 : ℚ), 0), (2, 1)] 1000 50 :=
  normalize_coords_translation_invariant [((0 : ℚ), 0), (2, 1)] (10, 4) (by simp) 1000 50

end NormalizerClaims

section EncoderLemmas

open CADConverter

/-- A mesh with no vertices projects to the empty point list, for every view. -/
theorem get_projection_nil {α : Type} [Field α] (c s : α) (fs : List (ℕ × ℕ × ℕ))
    (view : String) :
    CADConverter.get_projection c s (Mesh.mk [] fs) view = [] := by
  unfold CADConverter.get_projection
  split_ifs <;> rfl

/-- Unfolding `to_svg` on the non-filled branch when there is at least one
edge endpoint: the flattened endpoints are normalized together and the lines
are drawn by `svgWireLines`. -/
theorem to_svg_wire_eq (c s : ℚ) (m : Mesh ℚ) (view : String) (sz : ℚ)
    (mode : String) (hmode : mode ≠ "filled")
    (hne : flattenEdges (get_outline_edges c s m view) ≠ []) :
    to_svg c s m view sz mode
      = .ok (SvgElem.rect (0, 0) (sz, sz) "white" ::
          svgWireLines
            (normalize_coords (flattenEdges (get_outline_edges c s m view)) sz 50).1
            (get_outline_edges c s m view).length sz) := by
  unfold to_svg
  rw [if_neg hmode]
  have h1 : vstackE (flattenEdges (get_outline_edges c s m view))
      = .ok (flattenEdges (get_outline_edges c s m view)) := by
    unfold vstackE; rw [if_neg hne]
  have h2 : normalize_coordsE (flattenEdges (get_outline_edges c s m view)) sz 50
      = .ok (normalize_coords (flattenEdges (get_outline_edges c s m view)) sz 50) := by
    unfold normalize_coordsE; rw [if_neg hne]
  rw [h1]
  simp only [h2]

/-- Unfolding `to_png` on the non-filled branch, same shape as `to_svg`. -/
theorem to_png_wire_eq (c s : ℚ) (m : Mesh ℚ) (view : String) (sz : ℚ)
    (mode : String) (hmode : mode ≠ "filled")
    (hne : flattenEdges (get_outline_edges c s m view) ≠ []) :
    to_png c s m view sz mode
      = .ok (pngWireLines
          (normalize_coords (flattenEdges (get_outline_edges c s m view)) sz 50).1
          (get_outline_edges c s m view).length sz) := by
  unfold to_png
  rw [if_neg hmode]
  have h1 : vstackE (flattenEdges (get_outline_edges c s m view))
      = .ok (flattenEdges (get_outline_edges c s m view)) := by
    unfold vstackE; rw [if_neg hne]
  have h2 : normalize_coordsE (flattenEdges (get_outline_edges c s m view)) sz 50
      = .ok (normalize_coords (flattenEdges (get_outline_edges c s m view)) sz 50) := by
    unfold normalize_coordsE; rw [if_neg hne]
  rw [h1]
  simp only [h2]

/-- Unfolding `to_svg` on the filled branch when the projection is nonempty:
the full projected point set is normalized and each face becomes a polygon. -/
theorem to_svg_filled_eq (c s : ℚ) (m : Mesh ℚ) (view : String) (sz : ℚ)
    (hne : get_projection c s m view ≠ []) :
    to_svg c s m view sz "filled"
      = .ok (SvgElem.rect (0, 0) (sz, sz) "white" ::
          m.faces.map fun f =>
            SvgElem.polygon
              [(((normalize_coords (get_projection c s m view) sz 50).1.getD f.1 (0, 0)).1,
                sz - ((normalize_coords (get_projection c s m view) sz 50).1.getD f.1 (0, 0)).2),
               (((normalize_coords (get_projection c s m view) sz 50).1.getD f.2.1 (0, 0)).1,
                sz - ((normalize_coords (get_projection c s m view) sz 50).1.getD f.2.1 (0, 0)).2),
               (((normalize_coords (get_projection c s m view) sz 50).1.getD f.2.2 (0, 0)).1,
                sz - ((normalize_coords (get_projection c s m view) sz 50).1.getD f.2.2 (0, 0)).2)]
              "lightgray" "black" (1 / 2)) := by
  unfold to_svg
  rw [if_pos rfl]
  rw [show normalize_coordsE (get_projection c s m view) sz 50
      = .ok (normalize_coords (get_projection c s m view) sz 50) from by
    unfold normalize_coordsE; rw [if_neg hne]]

/-- Unfolding `to_png` on the filled branch, same shape as `to_svg`. -/
theorem to_png_filled_eq (c s : ℚ) (m : Mesh ℚ) (view : String) (sz : ℚ)
    (hne : get_projection c s m view ≠ []) :
    to_png c s m view sz "filled"
      = .ok (m.faces.map fun f =>
          PngCmd.polygon
            [(((normalize_coords (get_projection c s m view) sz 50).1.getD f.1 (0, 0)).1,
              sz - ((normalize_coords (get_projection c s m view) sz 50).1.getD f.1 (0, 0)).2),
             (((normalize_coords (get_projection c s m view) sz 50).1.getD f.2.1 (0, 0)).1,
              sz - ((normalize_coords (get_projection c s m view) sz 50).1.getD f.2.1 (0, 0)).2),
             (((normalize_coords (get_projection c s m view) sz 50).1.getD f.2.2 (0, 0)).1,
              sz - ((normalize_coords (get_projection c s m view) sz 50).1.getD f.2.2 (0, 0)).2)]
            (200, 200, 200) (0, 0, 0)) := by
  unfold to_png
  rw [if_pos rfl]
  rw [show normalize_coordsE (get_projection c s m view) sz 50
      = .ok (normalize_coords (get_projection c s m view) sz 50) from by
    unfold normalize_coordsE; rw [if_neg hne]]

end EncoderLemmas

section DxfClaims

open CADConverter

/-- **C6.** The DXF encoder applies no normalization: in wireframe/outline
mode every emitted line entity carries exactly the raw projected coordinates
of its unique edge's endpoints, and in filled mode every closed polyline
carries exactly the raw projected coordinates of its face's three vertices
(exact equality in this rational model). -/
theorem dxf_raw_projected_coords (c s : ℚ) (m : Mesh ℚ) (view : String) :
    (∀ mode, mode ≠ "filled" →
      to_dxf c s m view mode
        = Except.ok (m.edges_unique.map fun e =>
            DxfEntity.line ((get_projection c s m view).getD e.1 (0, 0))
              ((get_projection c s m view).getD e.2 (0, 0))))
    ∧ to_dxf c s m view "filled"
        = Except.ok (m.faces.map fun f =>
            DxfEntity.lwpolyline
              [(get_projection c s m view).getD f.1 (0, 0),
               (get_projection c s m view).getD f.2.1 (0, 0),
               (get_projection c s m view).getD f.2.2 (0, 0)] true) := by
  constructor
  · intro mode hmode
    unfold to_dxf
    rw [if_neg hmode]
    unfold get_outline_edges
    rw [List.map_map]
    rfl
  · unfold to_dxf
    rw [if_pos rfl]
    unfold get_filled_projection
    rw [List.map_map]
    rfl

/-- **C6 witness.** The DXF wireframe entities of a concrete triangle under
the `top` view are the raw projected edge endpoints. -/
theorem dxf_raw_projected_coords_witness :
    CADConverter.to_dxf 0 0 (Mesh.mk [((0 : ℚ), 0, 0), (1, 2, 3), (4, 5, 6)] [(0, 1, 2)])
        "top" "wireframe"
      = Except.ok [DxfEntity.line (0, 0) (1, 2), DxfEntity.line (1, 2) (4, 5),
          DxfEntity.line (0, 0) (4, 5)] := by
  have h := (dxf_raw_projected_coords 0 0
    (Mesh.mk [((0 : ℚ), 0, 0), (1, 2, 3), (4, 5, 6)] [(0, 1, 2)]) "top").1 "wireframe" (by decide)
  rw [h]
  rfl

/-- **C7 counterexample.** The claim is false on the code: on a mesh with zero
vertices (hence zero faces and zero unique edges) the DXF encoder does not
fail fast with an InvalidMesh error — no such error exists in the code — it
succeeds and emits an empty entity list (an empty but complete document is
written). -/
theorem invalid_mesh_counterexample :
    CADConverter.to_dxf 0 0 (Mesh.mk [] []) "top" "wireframe" = Except.ok [] := rfl

/-- **C7 amended.** What the code actually does on an empty mesh: `to_dxf`
succeeds with zero entities for every view and mode; the SVG and PNG encoders
fail, but with numpy errors, not an InvalidMesh error: in wireframe/outline
mode `np.vstack` rejects the empty edge list, and in filled mode the
normalizer's `min` reduction rejects the empty projection. -/
theorem invalid_mesh_amended (c s sz : ℚ) (view mode : String) :
    to_dxf c s (Mesh.mk [] []) view mode = Except.ok []
    ∧ to_svg c s (Mesh.mk [] []) view sz "wireframe"
        = Except.error "need at least one array to concatenate"
    ∧ to_png c s (Mesh.mk [] []) view sz "wireframe"
        = Except.error "need at least one array to concatenate"
    ∧ to_svg c s (Mesh.mk [] []) view sz "filled"
        = Except.error "zero-size array to reduction operation minimum which has no identity"
    ∧ to_png c s (Mesh.mk [] []) view sz "filled"
        = Except.error "zero-size array to reduction operation minimum which has no identity" := by
  refine ⟨?_, rfl, rfl, ?_, ?_⟩
  · by_cases h : mode = "filled"
    · subst h; rfl
    · unfold to_dxf; rw [if_neg h]; rfl
  · unfold to_svg
    rw [if_pos rfl, get_projection_nil]
    rfl
  · unfold to_png
    rw [if_pos rfl, get_projection_nil]
    rfl

/-- **C9.** For every mesh, view and canvas size, each of the three encoders
produces identical output for mode `outline` as for mode `wireframe`: the mode
is only ever compared against "filled", so both fall into the edge-only
branch. -/
theorem outline_equals_wireframe (c s sz : ℚ) (m : Mesh ℚ) (view : String) :
    to_dxf c s m view "outline" = to_dxf c s m view "wireframe"
    ∧ to_svg c s m view sz "outline" = to_svg c s m view sz "wireframe"
    ∧ to_png c s m view sz "outline" = to_png c s m view sz "wireframe" :=
  ⟨rfl, rfl, rfl⟩

end DxfClaims

section PairingLemmas

open CADConverter

theorem flattenEdges_cons (e : (ℚ × ℚ) × (ℚ × ℚ)) (es : List ((ℚ × ℚ) × (ℚ × ℚ))) :
    flattenEdges (e :: es) = e.1 :: e.2 :: flattenEdges es := rfl

/-- The flattened endpoint sequence has two points per edge. -/
theorem flattenEdges_length (edges : List ((ℚ × ℚ) × (ℚ × ℚ))) :
    (flattenEdges edges).length = 2 * edges.length := by
  induction edges with
  | nil => rfl
  | cons e es ih =>
    rw [flattenEdges_cons]
    simp only [List.length_cons, ih]
    omega

/-- Position 2k of the flattened sequence is the first endpoint of edge k. -/
theorem flattenEdges_getD_even (edges : List ((ℚ × ℚ) × (ℚ × ℚ))) (k : ℕ)
    (hk : k < edges.length) (d : ℚ × ℚ) (de : (ℚ × ℚ) × (ℚ × ℚ)) :
    (flattenEdges edges).getD (2 * k) d = (edges.getD k de).1 := by
  induction edges generalizing k with
  | nil => exact absurd hk (Nat.not_lt_zero k)
  | cons e es ih =>
    cases k with
    | zero => rfl
    | succ n =>
      rw [flattenEdges_cons]
      have h2 : 2 * (n + 1) = 2 * n + 1 + 1 := by ring
      rw [h2, List.getD_cons_succ, List.getD_cons_succ, List.getD_cons_succ]
      exact ih n (Nat.lt_of_succ_lt_succ hk)

/-- Position 2k+1 of the flattened sequence is the second endpoint of edge k. -/
theorem flattenEdges_getD_odd (edges : List ((ℚ × ℚ) × (ℚ × ℚ))) (k : ℕ)
    (hk : k < edges.length) (d : ℚ × ℚ) (de : (ℚ × ℚ) × (ℚ × ℚ)) :
    (flattenEdges edges).getD (2 * k + 1) d = (edges.getD k de).2 := by
  induction edges generalizing k with
  | nil => exact absurd hk (Nat.not_lt_zero k)
  | cons e es ih =>
    cases k with
    | zero => rfl
    | succ n =>
      rw [flattenEdges_cons]
      have h2 : 2 * (n + 1) + 1 = 2 * n + 1 + 1 + 1 := by ring
      rw [h2, List.getD_cons_succ, List.getD_cons_succ, List.getD_cons_succ]
      exact ih n (Nat.lt_of_succ_lt_succ hk)

/-- `getD` on `List.range`, inside bounds. -/
theorem range_getD (n k : ℕ) (hk : k < n) : (List.range n).getD k 0 = k := by
  rw [List.getD_eq_getElem (List.range n) 0 (by simpa using hk)]
  exact List.getElem_range k (by simpa using hk)

/-- The k-th SVG wireframe line is built from normalized points 2k and 2k+1,
y-flipped. -/
theorem svgWireLines_getD (normalized : List (ℚ × ℚ)) (n : ℕ) (sz : ℚ) (k : ℕ)
    (hk : k < n) (d : SvgElem) :
    (svgWireLines normalized n sz).getD k d
      = SvgElem.line
          ((normalized.getD (2 * k) (0, 0)).1, sz - (normalized.getD (2 * k) (0, 0)).2)
          ((normalized.getD (2 * k + 1) (0, 0)).1, sz - (normalized.getD (2 * k + 1) (0, 0)).2)
          "black" (3 / 2) := by
  unfold svgWireLines
  rw [getD_map_of_lt _ (List.range n) k (by simpa using hk) 0 d, range_getD n k hk]

/-- The k-th PNG wireframe line is built from normalized points 2k and 2k+1,
y-flipped. -/
theorem pngWireLines_getD (normalized : List (ℚ × ℚ)) (n : ℕ) (sz : ℚ) (k : ℕ)
    (hk : k < n) (d : PngCmd) :
    (pngWireLines normalized n sz).getD k d
      = PngCmd.line
          ((normalized.getD (2 * k) (0, 0)).1, sz - (normalized.getD (2 * k) (0, 0)).2)
          ((normalized.getD (2 * k + 1) (0, 0)).1, sz - (normalized.getD (2 * k + 1) (0, 0)).2)
          "black" 2 := by
  unfold pngWireLines
  rw [getD_map_of_lt _ (List.range n) k (by simpa using hk) 0 d, range_getD n k hk]

/-- The normalized point list is the pointwise `normPt` image of its input. -/
theorem normalize_coords_fst (points : List (ℚ × ℚ)) (size margin : ℚ) :
    (normalize_coords points size margin).1
      = points.map (normPt (listMin (points.map Prod.fst)) (listMin (points.map Prod.snd))
          ((normalize_coords points size margin).2) margin) := rfl

end PairingLemmas

section WireframeClaim

open CADConverter

/-- **C8.** In wireframe/outline mode the SVG and PNG encoders normalize the
flattened sequence of all edge endpoints together against one combined
bounding box, then re-pair sequentially: the whole output is the background
plus one line per edge drawn by the wire loop; the k-th drawn line connects
normalized points 2k and 2k+1 (each with vertical flip y' = size - y); and
those two normalized points are exactly the `normPt` images — under the
combined bounding box and shared scale — of the k-th unique edge's two
endpoints. -/
theorem wireframe_positional_pairing (c s : ℚ) (m : Mesh ℚ) (view : String)
    (sz : ℚ) (k : ℕ) (hk : k < (get_outline_edges c s m view).length) :
    to_svg c s m view sz "wireframe"
      = Except.ok (SvgElem.rect (0, 0) (sz, sz) "white" ::
          svgWireLines
            (normalize_coords (flattenEdges (get_outline_edges c s m view)) sz 50).1
            (get_outline_edges c s m view).length sz)
    ∧ to_png c s m view sz "wireframe"
      = Except.ok (pngWireLines
          (normalize_coords (flattenEdges (get_outline_edges c s m view)) sz 50).1
          (get_outline_edges c s m view).length sz)
    ∧ (svgWireLines
          (normalize_coords (flattenEdges (get_outline_edges c s m view)) sz 50).1
          (get_outline_edges c s m view).length sz).getD k (SvgElem.rect (0, 0) (0, 0) "")
      = SvgElem.line
          (((normalize_coords (flattenEdges (get_outline_edges c s m view)) sz 50).1.getD
              (2 * k) (0, 0)).1,
           sz - ((normalize_coords (flattenEdges (get_outline_edges c s m view)) sz 50).1.getD
              (2 * k) (0, 0)).2)
          (((normalize_coords (flattenEdges (get_outline_edges c s m view)) sz 50).1.getD
              (2 * k + 1) (0, 0)).1,
           sz - ((normalize_coords (flattenEdges (get_outline_edges c s m view)) sz 50).1.getD
              (2 * k + 1) (0, 0)).2)
          "black" (3 / 2)
    ∧ (pngWireLines
          (normalize_coords (flattenEdges (get_outline_edges c s m view)) sz 50).1
          (get_outline_edges c s m view).length sz).getD k (PngCmd.line (0, 0) (0, 0) "" 0)
      = PngCmd.line
          (((normalize_coords (flattenEdges (get_outline_edges c s m view)) sz 50).1.getD
              (2 * k) (0, 0)).1,
           sz - ((normalize_coords (flattenEdges (get_outline_edges c s m view)) sz 50).1.getD
              (2 * k) (0, 0)).2)
          (((normalize_coords (flattenEdges (get_outline_edges c s m view)) sz 50).1.getD
              (2 * k + 1) (0, 0)).1,
           sz - ((normalize_coords (flattenEdges (get_outline_edges c s m view)) sz 50).1.getD
              (2 * k + 1) (0, 0)).2)
          "black" 2
    ∧ (normalize_coords (flattenEdges (get_outline_edges c s m view)) sz 50).1.getD
          (2 * k) (0, 0)
      = normPt (listMin ((flattenEdges (get_outline_edges c s m view)).map Prod.fst))
          (listMin ((flattenEdges (get_outline_edges c s m view)).map Prod.snd))
          ((normalize_coords (flattenEdges (get_outline_edges c s m view)) sz 50).2) 50
          ((get_outline_edges c s m view).getD k ((0, 0), (0, 0))).1
    ∧ (normalize_coords (flattenEdges (get_outline_edges c s m view)) sz 50).1.getD
          (2 * k + 1) (0, 0)
      = normPt (listMin ((flattenEdges (get_outline_edges c s m view)).map Prod.fst))
          (listMin ((flattenEdges (get_outline_edges c s m view)).map Prod.snd))
          ((normalize_coords (flattenEdges (get_outline_edges c s m view)) sz 50).2) 50
          ((get_outline_edges c s m view).getD k ((0, 0), (0, 0))).2 := by
  have hlen : (flattenEdges (get_outline_edges c s m view)).length
      = 2 * (get_outline_edges c s m view).length :=
    flattenEdges_length (get_outline_edges c s m view)
  have hfne : flattenEdges (get_outline_edges c s m view) ≠ [] := by
    intro h0
    rw [h0] at hlen
    simp only [List.length_nil] at hlen
    omega
  have heven : 2 * k < (flattenEdges (get_outline_edges c s m view)).length := by
    rw [hlen]; omega
  have hodd : 2 * k + 1 < (flattenEdges (get_outline_edges c s m view)).length := by
    rw [hlen]; omega
  refine ⟨to_svg_wire_eq c s m view sz "wireframe" (by decide) hfne,
    to_png_wire_eq c s m view sz "wireframe" (by decide) hfne,
    svgWireLines_getD _ _ sz k hk _,
    pngWireLines_getD _ _ sz k hk _, ?_, ?_⟩
  · rw [normalize_coords_fst, getD_map_of_lt _ _ _ heven ((0 : ℚ), (0 : ℚ)),
      flattenEdges_getD_even _ k hk]
  · rw [normalize_coords_fst, getD_map_of_lt _ _ _ hodd ((0 : ℚ), (0 : ℚ)),
      flattenEdges_getD_odd _ k hk]

/-- **C8 witness.** The pairing claim applied to a concrete triangle under the
`top` view on a 1000-canvas at edge index k = 0. -/
theorem wireframe_positional_pairing_witness :
    CADConverter.to_svg 0 0 (Mesh.mk [((0 : ℚ), 0, 0), (2, 0, 0), (0, 1, 0)] [(0, 1, 2)])
        "top" 1000 "wireframe"
      = Except.ok (SvgElem.rect (0, 0) (1000, 1000) "white" ::
          CADConverter.svgWireLines
            (CADConverter.normalize_coords
              (CADConverter.flattenEdges
                (CADConverter.get_outline_edges 0 0
                  (Mesh.mk [((0 : ℚ), 0, 0), (2, 0, 0), (0, 1, 0)] [(0, 1, 2)]) "top"))
              1000 50).1
            (CADConverter.get_outline_edges 0 0
              (Mesh.mk [((0 : ℚ), 0, 0), (2, 0, 0), (0, 1, 0)] [(0, 1, 2)]) "top").length
            1000) :=
  (wireframe_positional_pairing 0 0
    (Mesh.mk [((0 : ℚ), 0, 0), (2, 0, 0), (0, 1, 0)] [(0, 1, 2)]) "top" 1000 0
    (by decide)).1

end WireframeClaim

section CollapseClaim

open CADConverter

/-- When the span `size - 2*margin` is zero, the scale is zero and every
normalized point is `(margin, margin)`, with no error. -/
theorem normalize_coords_zero_span (points : List (ℚ × ℚ)) (size margin : ℚ)
    (hsz : size - 2 * margin = 0) :
    (normalize_coords points size margin).2 = 0
    ∧ (normalize_coords points size margin).1 = points.map fun _ => (margin, margin) := by
  have hscale : (normalize_coords points size margin).2 = 0 := by
    show (size - 2 * margin) / _ = 0
    rw [hsz, zero_div]
  refine ⟨hscale, ?_⟩
  rw [normalize_coords_fst, hscale]
  refine List.map_congr_left ?_
  intro a _
  simp [normPt]

/-- **C10.** At the minimum accepted canvas size 100 with the default margin
50, the available span is zero: `normalize_coords` returns scale 0 and maps
every input point, regardless of extent, to (50, 50); accordingly the SVG and
PNG encoders succeed (no error) and all their drawn geometry collapses to the
single point (50, 50) (the vertical flip fixes it: 100 − 50 = 50). -/
theorem size100_collapse (points : List (ℚ × ℚ)) (hpts : points ≠ [])
    (c s : ℚ) (m : Mesh ℚ) (view : String)
    (hE : get_outline_edges c s m view ≠ [])
    (hv : m.vertices ≠ []) (hvalid : m.valid) :
    (normalize_coords points 100 50).2 = 0
    ∧ (normalize_coords points 100 50).1 = points.map (fun _ => ((50 : ℚ), (50 : ℚ)))
    ∧ to_svg c s m view 100 "wireframe"
        = Except.ok (SvgElem.rect (0, 0) (100, 100) "white" ::
            (List.range (get_outline_edges c s m view).length).map fun _ =>
              SvgElem.line (50, 50) (50, 50) "black" (3 / 2))
    ∧ to_png c s m view 100 "wireframe"
        = Except.ok ((List.range (get_outline_edges c s m view).length).map fun _ =>
            PngCmd.line (50, 50) (50, 50) "black" 2)
    ∧ to_svg c s m view 100 "filled"
        = Except.ok (SvgElem.rect (0, 0) (100, 100) "white" ::
            m.faces.map fun _ =>
              SvgElem.polygon [(50, 50), (50, 50), (50, 50)] "lightgray" "black" (1 / 2))
    ∧ to_png c s m view 100 "filled"
        = Except.ok (m.faces.map fun _ =>
            PngCmd.polygon [(50, 50), (50, 50), (50, 50)] (200, 200, 200) (0, 0, 0)) := by
  have hz : (100 : ℚ) - 2 * 50 = 0 := by norm_num
  have hmain := normalize_coords_zero_span points 100 50 hz
  have hfne : flattenEdges (get_outline_edges c s m view) ≠ [] := by
    cases hEdges : get_outline_edges c s m view with
    | nil => exact absurd hEdges hE
    | cons e es => rw [flattenEdges_cons]; exact List.cons_ne_nil _ _
  have hflen := flattenEdges_length (get_outline_edges c s m view)
  have hflat := normalize_coords_zero_span (flattenEdges (get_outline_edges c s m view)) 100 50 hz
  have hpne : get_projection c s m view ≠ [] := by
    intro h0
    have hl := get_projection_length c s m view
    rw [h0] at hl
    simp only [List.length_nil] at hl
    exact hv (List.length_eq_zero.mp hl.symm)
  have hplen := get_projection_length c s m view
  have hproj := normalize_coords_zero_span (get_projection c s m view) 100 50 hz
  refine ⟨hmain.1, hmain.2, ?_, ?_, ?_, ?_⟩
  · rw [to_svg_wire_eq c s m view 100 "wireframe" (by decide) hfne]
    refine congrArg Except.ok (congrArg (List.cons _) ?_)
    rw [hflat.2]
    unfold svgWireLines
    refine List.map_congr_left ?_
    intro k hkr
    have hk : k < (get_outline_edges c s m view).length := List.mem_range.mp hkr
    rw [getD_map_of_lt _ _ (2 * k) (by rw [hflen]; omega) ((0 : ℚ), (0 : ℚ)),
      getD_map_of_lt _ _ (2 * k + 1) (by rw [hflen]; omega) ((0 : ℚ), (0 : ℚ))]
    norm_num
  · rw [to_png_wire_eq c s m view 100 "wireframe" (by decide) hfne]
    refine congrArg Except.ok ?_
    rw [hflat.2]
    unfold pngWireLines
    refine List.map_congr_left ?_
    intro k hkr
    have hk : k < (get_outline_edges c s m view).length := List.mem_range.mp hkr
    rw [getD_map_of_lt _ _ (2 * k) (by rw [hflen]; omega) ((0 : ℚ), (0 : ℚ)),
      getD_map_of_lt _ _ (2 * k + 1) (by rw [hflen]; omega) ((0 : ℚ), (0 : ℚ))]
    norm_num
  · rw [to_svg_filled_eq c s m view 100 hpne]
    refine congrArg Except.ok (congrArg (List.cons _) ?_)
    refine List.map_congr_left ?_
    intro f hf
    obtain ⟨h1, h2, h3⟩ := hvalid f hf
    rw [hproj.2]
    rw [getD_map_of_lt _ _ f.1 (by rw [hplen]; exact h1) ((0 : ℚ), (0 : ℚ)),
      getD_map_of_lt _ _ f.2.1 (by rw [hplen]; exact h2) ((0 : ℚ), (0 : ℚ)),
      getD_map_of_lt _ _ f.2.2 (by rw [hplen]; exact h3) ((0 : ℚ), (0 : ℚ))]
    norm_num
  · rw [to_png_filled_eq c s m view 100 hpne]
    refine congrArg Except.ok ?_
    refine List.map_congr_left ?_
    intro f hf
    obtain ⟨h1, h2, h3⟩ := hvalid f hf
    rw [hproj.2]
    rw [getD_map_of_lt _ _ f.1 (by rw [hplen]; exact h1) ((0 : ℚ), (0 : ℚ)),
      getD_map_of_lt _ _ f.2.1 (by rw [hplen]; exact h2) ((0 : ℚ), (0 : ℚ)),
      getD_map_of_lt _ _ f.2.2 (by rw [hplen]; exact h3) ((0 : ℚ), (0 : ℚ))]
    norm_num

/-- **C10 witness.** The collapse claim at a concrete point set and a concrete
triangle mesh: scale is 0 and the size-100 PNG wireframe lines all degenerate
to the point (50, 50). -/
theorem size100_collapse_witness :
    (CADConverter.normalize_coords [((0 : ℚ), 0), (2, 1)] 100 50).2 = 0
    ∧ CADConverter.to_png 0 0 (Mesh.mk [((0 : ℚ), 0, 0), (2, 0, 0), (0, 1, 0)] [(0, 1, 2)])
        "top" 100 "wireframe"
      = Except.ok ((List.range (CADConverter.get_outline_edges 0 0
            (Mesh.mk [((0 : ℚ), 0, 0), (2, 0, 0), (0, 1, 0)] [(0, 1, 2)]) "top").length).map
          fun _ => PngCmd.line (50, 50) (50, 50) "black" 2) := by
  have h := size100_collapse [((0 : ℚ), 0), (2, 1)] (by simp) 0 0
    (Mesh.mk [((0 : ℚ), 0, 0), (2, 0, 0), (0, 1, 0)] [(0, 1, 2)]) "top"
    (by decide) (by simp) (by decide)
  exact ⟨h.1, h.2.2.2.1⟩

end CollapseClaim
